import Mathlib

set_option maxRecDepth 40000

/-!
Shallow embedding of `convert.py` (docx → xlsx batch converter).

Strings are modelled as `List Char`.  Python regular-expression passes are
translated into explicit recursive scanners; each definition carries a
comment naming the source line it embeds.  The character model is ASCII:
`\s` is rendered by `isPySpace`, `\w` by `isWordChar`.
-/

/-- Python `\s` (ASCII): the whitespace class used by `re.sub(r'\s+', …)`,
`str.split()`, `str.strip()` and `str.isspace()`. -/
def isPySpace (c : Char) : Bool :=
  c == ' ' || c == '\t' || c == '\n' || c == '\r' || c == '\x0b' || c == '\x0c'

/-- Python `\w` (ASCII): word characters, used for the `\b` boundaries of the
Roman-numeral regex on line 135. -/
def isWordChar (c : Char) : Bool := c.isAlphanum || c == '_'

/-- Drop the leading run of characters satisfying `p` (left half of
`str.strip`, and of `re.sub(r'[,:]+$', …)`-style trimming). -/
def dropLeading (p : Char → Bool) : List Char → List Char
  | [] => []
  | c :: cs => if p c then dropLeading p cs else c :: cs

/-- Drop the trailing run of characters satisfying `p` (right half of
`str.strip`; also the effect of `re.sub(r'[,:]+$', '', w)` with `p` the
label-punctuation class). -/
def dropTrailing (p : Char → Bool) : List Char → List Char
  | [] => []
  | c :: cs =>
    let r := dropTrailing p cs
    if r.isEmpty && p c then [] else c :: r

/-- Python `str.strip()` restricted to whitespace. -/
def pystripWs (l : List Char) : List Char := dropTrailing isPySpace (dropLeading isPySpace l)

/-- One step of run collapsing: `collapseByAux p r inRun l` replaces every
maximal run of characters satisfying `p` by the single character `r`;
`inRun` records whether the previous character satisfied `p`.  This is
`re.sub(P+, r, l)` for a one-character class `P`. -/
def collapseByAux (p : Char → Bool) (r : Char) : Bool → List Char → List Char
  | _, [] => []
  | inRun, c :: cs =>
    if p c then
      if inRun then collapseByAux p r true cs else r :: collapseByAux p r true cs
    else c :: collapseByAux p r false cs

/-- `re.sub(P+, r, l)` for a one-character class `P` given by `p`.
With `p` = whitespace and `r = ' '` this is line 31 / line 147; with
`p` = colon it is line 148 (`:{2,}` and `:+` coincide because the
replacement is itself a colon), and similarly line 149 for commas. -/
def collapseBy (p : Char → Bool) (r : Char) (l : List Char) : List Char :=
  collapseByAux p r false l

/-- `TextProcessor.normalize_text` (line 31): `re.sub(r'\s+', ' ', text).strip()`. -/
def normalizeText (l : List Char) : List Char := pystripWs (collapseBy isPySpace ' ' l)

/-- Python `str.split()` with no argument: split on whitespace runs, dropping
empty pieces.  The first argument accumulates the current word, reversed. -/
def pySplitAux : List Char → List Char → List (List Char)
  | acc, [] => if acc.isEmpty then [] else [acc.reverse]
  | acc, c :: cs =>
    if isPySpace c then
      if acc.isEmpty then pySplitAux [] cs else acc.reverse :: pySplitAux [] cs
    else pySplitAux (c :: acc) cs

/-- Python `str.split()` with no argument (line 65, line 105). -/
def pySplit (l : List Char) : List (List Char) := pySplitAux [] l

/-- Python `' '.join(words)` (line 71). -/
def joinSpace : List (List Char) → List Char
  | [] => []
  | [w] => w
  | w :: ws => w ++ ' ' :: joinSpace ws

/-- Whether `pat` is an initial segment of `l` (used to render regex
literals and lookaheads). -/
def frontMatches : List Char → List Char → Bool
  | [], _ => true
  | _ :: _, [] => false
  | a :: as, b :: bs => a == b && frontMatches as bs

/-- Python `pat in s` substring containment (line 139). -/
def containsSub (pat : List Char) : List Char → Bool
  | [] => frontMatches pat []
  | c :: cs => frontMatches pat (c :: cs) || containsSub pat cs

/-- Python `s.endswith(c)` for a single character (lines 121–131). -/
def lastIs (l : List Char) (c : Char) : Bool :=
  match l.getLast? with
  | some d => d == c
  | none => false

/-- Python `str.upper()` on ASCII (line 109). -/
def upperChars (l : List Char) : List Char := l.map Char.toUpper

/-- The label-punctuation class `[,:]` of `clean_first_word` (line 36). -/
def isLabelPunct (c : Char) : Bool := c == ',' || c == ':'

/-- `TextProcessor.clean_first_word` (line 36):
`re.sub(r'[,:]+$', '', word).strip()`.  In Python, `$` also matches just
before a final newline, hence the newline case. -/
def cleanFirstWord (w : List Char) : List Char :=
  pystripWs
    (if lastIs w '\n' then dropTrailing isLabelPunct w.dropLast ++ ['\n']
     else dropTrailing isLabelPunct w)

/-- The ten alternatives `I II III IV V VI VII VIII IX X` of the regex
`^(I|II|III|IV|V|VI|VII|VIII|IX|X)$` (line 25), in the order they appear,
written out as character lists. -/
def romanToks : List (List Char) :=
  [['I'], ['I', 'I'], ['I', 'I', 'I'], ['I', 'V'], ['V'],
   ['V', 'I'], ['V', 'I', 'I'], ['V', 'I', 'I', 'I'], ['I', 'X'], ['X']]

/-- `TextProcessor.is_roman_numeral` (lines 23–26) on a character list:
`re.match` of the anchored alternation against `text.strip()` is a full
match against one of the ten tokens. -/
def isRomanNumeralL (l : List Char) : Bool :=
  romanToks.any (fun t => pystripWs l == t)

/-- `TextProcessor.is_roman_numeral` (lines 23–26). -/
def isRomanNumeral (s : String) : Bool := isRomanNumeralL s.data

/-- A docx run: its text and the two binary style flags read by
`FormatProcessor.get_run_formatting`. -/
structure DocxRun where
  text : List Char
  bold : Bool
  italic : Bool
deriving Repr, DecidableEq

/-- `FormatProcessor.get_run_formatting` (lines 40–48). -/
def getRunFormatting (r : DocxRun) : Option (List Char) :=
  if r.bold && r.italic then some "bold italic".data
  else if r.bold then some "bold".data
  else if r.italic then some "italic".data
  else none

/-- The span wrapping of lines 79–80 / 90–91: when a format is set, the
text is enclosed in a span tag whose class attribute is the format name. -/
def wrapSpan (fmt : Option (List Char)) (txt : List Char) : List Char :=
  match fmt with
  | none => txt
  | some f => "<span class=\"".data ++ f ++ "\">".data ++ txt ++ "</span>".data

/-- The mutable state of `FormatProcessor.process_runs` (lines 52–55):
`formatted_text`, `current_format`, `current_text`, `words_processed`. -/
structure RunState where
  formatted : List (List Char)
  currentFormat : Option (List Char)
  currentText : List (List Char)
  wordsProcessed : Nat
deriving Repr, DecidableEq

/-- Initial state of `process_runs`. -/
def initState : RunState := ⟨[], none, [], 0⟩

/-- Lines 77–82 and 88–92: if `current_text` is non-empty, wrap its
concatenation in a span for the current format and append it to
`formatted_text`. -/
def flushState (st : RunState) : RunState :=
  if st.currentText.isEmpty then st
  else
    { st with
      formatted := st.formatted ++ [wrapSpan st.currentFormat st.currentText.flatten]
      currentText := [] }

/-- Lines 74–86: determine the run's format, flush on a format change, and
append the (possibly trimmed) run text to the accumulator. -/
def appendRun (st : RunState) (r : DocxRun) (t : List Char) : RunState :=
  let fmt := getRunFormatting r
  let st' := if fmt = st.currentFormat then st else { flushState st with currentFormat := fmt }
  { st' with currentText := st'.currentText ++ [t] }

/-- Python `str.isspace()`: non-empty and all whitespace (line 60). -/
def isSpaceText (t : List Char) : Bool := !t.isEmpty && t.all isPySpace

/-- One iteration of the `for run in paragraph.runs` loop of
`process_runs` (lines 57–86). -/
def processRun (skip : Nat) (st : RunState) (r : DocxRun) : RunState :=
  let runText := r.text
  if (pystripWs runText).isEmpty then
    if !st.currentText.isEmpty && isSpaceText runText then
      { st with currentText := st.currentText ++ [runText] }
    else st
  else if st.wordsProcessed < skip then
    let ws := pySplit runText
    if ws.length + st.wordsProcessed ≤ skip then
      { st with wordsProcessed := st.wordsProcessed + ws.length }
    else
      appendRun { st with wordsProcessed := skip } r
        (joinSpace (ws.drop (skip - st.wordsProcessed)))
  else
    appendRun st r runText

/-- `FormatProcessor.process_runs` (lines 50–95): fold the runs, flush the
final accumulator, and concatenate all flushed pieces. -/
def processRuns (runs : List DocxRun) (skip : Nat) : List Char :=
  (flushState (runs.foldl (processRun skip) initState)).formatted.flatten

/-- One optional `[:, ]?` character after a matched Roman token (line 135);
returns the rest and whether a character was consumed. -/
def dropPunct1 : List Char → List Char × Bool
  | [] => ([], false)
  | c :: cs => if c == ':' || c == ',' || c == ' ' then (cs, true) else (c :: cs, false)

/-- End-of-token word boundary `\b`: the next character, if any, is not a
word character. -/
def romanAfterOk : List Char → Bool
  | [] => true
  | c :: _ => !isWordChar c

/-- Attempt the alternation `(I|II|III|IV|V|VI|VII|VIII|IX|X)\b` at the head
of `l`, alternatives in regex order; returns the rest after the token. -/
def matchRomanTok (l : List Char) : Option (List Char) :=
  romanToks.findSome? fun t =>
    if frontMatches t l && romanAfterOk (l.drop t.length) then some (l.drop t.length) else none

/-- Scanner for `re.sub(r'\b(I|II|III|IV|V|VI|VII|VIII|IX|X)\b[:, ]?', '', s)`
(line 135).  `prevWord` tracks whether the previously scanned character of
the original string is a word character (the `\b` before the token);
`fuel` bounds the recursion and is initialised to the string length. -/
def stripRomanAux : Nat → Bool → List Char → List Char
  | 0, _, l => l
  | _ + 1, _, [] => []
  | fuel + 1, prevWord, c :: cs =>
    match if prevWord then none else matchRomanTok (c :: cs) with
    | some rest =>
      let pr := dropPunct1 rest
      stripRomanAux fuel (!pr.2) pr.1
    | none => c :: stripRomanAux fuel (isWordChar c) cs

/-- Line 135: remove standalone Roman-numeral tokens (plus one optional
trailing `:`/`,`/space) anywhere in the body. -/
def stripRomanTokens (l : List Char) : List Char := stripRomanAux l.length false l

/-- Split at the first `'>'`: returns the characters before it and the rest
after it (the `[^>]*>` part of the tag regexes). -/
def splitAtGt : List Char → Option (List Char × List Char)
  | [] => none
  | c :: cs =>
    if c == '>' then some ([], cs)
    else
      match splitAtGt cs with
      | some (a, b) => some (c :: a, b)
      | none => none

/-- The negative lookahead `(?!/?span)` of line 136, i.e. the condition
under which a tag is kept: the text after `'<'` starts with `span` or
`/span`. -/
def tagKeep (l : List Char) : Bool :=
  frontMatches "span".data l || frontMatches "/span".data l

/-- Scanner for `re.sub(r'<(?!/?span)[^>]+>', '', s)` (line 136): a `'<'`
whose following text does not start with `span`/`/span` and which is
followed by at least one non-`'>'` character and then `'>'` is removed
together with that content; otherwise characters are copied. -/
def stripTagsAux : Nat → List Char → List Char
  | 0, l => l
  | _ + 1, [] => []
  | fuel + 1, c :: cs =>
    if c == '<' && !tagKeep cs then
      match splitAtGt cs with
      | some (inner, after) =>
        if inner.isEmpty then c :: stripTagsAux fuel cs else stripTagsAux fuel after
      | none => c :: stripTagsAux fuel cs
    else c :: stripTagsAux fuel cs

/-- Line 136: strip markup tags other than those beginning with
`<span`/`</span`. -/
def stripDisallowedTags (l : List Char) : List Char := stripTagsAux l.length l

/-- The lazy `(.*?)(</span>)` of line 140: split at the earliest following
`</span>` with no newline before it (`.` does not match `'\n'`). -/
def findCloseSpan : List Char → Option (List Char × List Char)
  | [] => none
  | c :: cs =>
    if frontMatches "</span>".data (c :: cs) then some ([], (c :: cs).drop 7)
    else if c == '\n' then none
    else
      match findCloseSpan cs with
      | some (g, r) => some (c :: g, r)
      | none => none

/-- Attempt the regex `(<span[^>]*>)(.*?)(</span>)` at the head of `l`;
returns the text of groups 1–2 and the rest after the closing tag. -/
def matchSpanAt (l : List Char) : Option (List Char × List Char) :=
  if frontMatches "<span".data l then
    match splitAtGt (l.drop 5) with
    | some (attrs, after) =>
      match findCloseSpan after with
      | some (gap, rest) => some ("<span".data ++ attrs ++ '>' :: gap, rest)
      | none => none
    | none => none
  else none

/-- Scanner for the `count=1` substitution of lines 140–143: at the first
position where the span regex matches, insert `punct` before the closing
tag and stop. -/
def insertPunctAux : Nat → List Char → List Char → List Char
  | 0, _, l => l
  | _ + 1, _, [] => []
  | fuel + 1, punct, c :: cs =>
    match matchSpanAt (c :: cs) with
    | some (pre, rest) => pre ++ punct ++ "</span>".data ++ rest
    | none => c :: insertPunctAux fuel punct cs

/-- Lines 140–143 substitution entry point. -/
def insertPunctSpan (punct l : List Char) : List Char := insertPunctAux l.length punct l

/-- Lines 138–145: re-attach detected punctuation, inside the first span if
one is present, otherwise prefixed with a space. -/
def applyPunct (punct body : List Char) : List Char :=
  if containsSub "<span".data body then insertPunctSpan punct body
  else punct ++ ' ' :: body

/-- The colon class of line 148. -/
def isColonB (c : Char) : Bool := c == ':'

/-- The comma class of line 149. -/
def isCommaB (c : Char) : Bool := c == ','

/-- Lines 147–149: collapse whitespace runs and trim, then collapse colon
runs, then comma runs. -/
def finalNormalize (l : List Char) : List Char :=
  collapseBy isCommaB ',' (collapseBy isColonB ':' (normalizeText l))

/-- `paragraph.text` of python-docx: the concatenation of the runs' texts. -/
def paraText (runs : List DocxRun) : List Char := (runs.map DocxRun.text).flatten

/-- No two adjacent characters of `l` satisfy `p`: the shape of a string in
the image of run collapsing. -/
def noTwoB (p : Char → Bool) : List Char → Bool
  | [] => true
  | [_] => true
  | a :: b :: rest => !(p a && p b) && noTwoB p (b :: rest)

/-- Every character of `l` satisfying `p` is the replacement character `r`. -/
def allReplB (p : Char → Bool) (r : Char) (l : List Char) : Bool :=
  l.all fun c => !p c || c == r

/-- The first character, if any, does not satisfy `p`. -/
def headOkB (p : Char → Bool) : List Char → Bool
  | [] => true
  | c :: _ => !p c

/-- The last character, if any, does not satisfy `p`. -/
def lastOkB (p : Char → Bool) : List Char → Bool
  | [] => true
  | [c] => !p c
  | _ :: c :: rest => lastOkB p (c :: rest)

/-- `DocumentProcessor.process_paragraph` (lines 102–151), additionally
exposing the internal `has_punctuation` value as the middle component. -/
def processParagraphExt (runs : List DocxRun) :
    List Char × Option (List Char) × List Char :=
  let text := normalizeText (paraText runs)
  match pySplit text with
  | [] => ([], none, [])
  | w0 :: restWords =>
    let firstWord := cleanFirstWord (upperChars w0)
    let tsp : List Char × Nat × Option (List Char) :=
      match restWords with
      | [] =>
        (firstWord, 1,
          if lastIs w0 ':' then some [':']
          else if lastIs w0 ',' then some [','] else none)
      | secondWord :: rest2 =>
        let secondClean := cleanFirstWord secondWord
        if isRomanNumeralL secondClean then
          let fw := firstWord ++ ' ' :: secondClean
          if lastIs secondWord ':' then (fw, 2, some [':'])
          else if lastIs secondWord ',' then (fw, 2, some [','])
          else
            match rest2 with
            | w3 :: _ => if w3 = [':'] ∨ w3 = [','] then (fw, 3, some w3) else (fw, 2, none)
            | [] => (fw, 2, none)
        else (firstWord, 1, none)
    let body0 := processRuns runs tsp.2.1
    let body1 := stripRomanTokens body0
    let body2 := stripDisallowedTags body1
    let body3 :=
      match tsp.2.2 with
      | some p => applyPunct p body2
      | none => body2
    (tsp.1, tsp.2.2, finalNormalize body3)

/-- `DocumentProcessor.process_paragraph` (lines 102–151): the pair the
source returns. -/
def processParagraph (runs : List DocxRun) : List Char × List Char :=
  ((processParagraphExt runs).1, (processParagraphExt runs).2.2)

/-- One output row of `convert_single_file` (lines 192–199). -/
structure OutputRow where
  articleId : Nat
  articleCat : List Char
  articleTitle : List Char
  articleIntroText : List Char
deriving Repr, DecidableEq

/-- The paragraph loop of `convert_single_file` (lines 183–202): emit a row
(with the next `article_id`) for every paragraph with non-empty normalized
text and non-empty title. -/
def emitRowsAux (cat : List Char) : Nat → List (List DocxRun) → List OutputRow
  | _, [] => []
  | id, p :: ps =>
    if (normalizeText (paraText p)).isEmpty then emitRowsAux cat id ps
    else if (processParagraph p).1.isEmpty then emitRowsAux cat id ps
    else
      ⟨id, cat, (processParagraph p).1, "<p>".data ++ (processParagraph p).2 ++ "</p>".data⟩ ::
        emitRowsAux cat (id + 1) ps

/-- Rows of one document: `article_id` starts at 1 and the category is the
uppercased file stem (lines 184–185). -/
def convertSingleFileRows (stem : List Char) (paras : List (List DocxRun)) : List OutputRow :=
  emitRowsAux (upperChars stem) 1 paras

/-- The per-document part of the batch: each document is converted
independently with a fresh row counter. -/
def convertBatchRows (docs : List (List Char × List (List DocxRun))) : List (List OutputRow) :=
  docs.map fun d => convertSingleFileRows d.1 d.2

/-- The document loop of `process_all_files` (lines 236–241):
`convert_single_file` re-raises its error (line 222) and the loop catches
it and continues, so every file is attempted and paired with its own
outcome. -/
def processAllFiles {α ε β : Type} (convert : α → Except ε β) :
    List α → List (α × Except ε β)
  | [] => []
  | f :: fs => (f, convert f) :: processAllFiles convert fs

/-! Generic lemmas about run collapsing and stripping, used to settle the
idempotence claim about the final normalization passes. -/

theorem noTwoB_tail {p : Char → Bool} {c : Char} {l : List Char}
    (h : noTwoB p (c :: l) = true) : noTwoB p l = true := by
  cases l with
  | nil => rfl
  | cons d ds => simp [noTwoB] at h; exact h.2

theorem noTwoB_cons {p : Char → Bool} {c : Char} {l : List Char}
    (h1 : ∀ d, l.head? = some d → (p c && p d) = false)
    (h2 : noTwoB p l = true) : noTwoB p (c :: l) = true := by
  cases l with
  | nil => rfl
  | cons d ds => simp [noTwoB, h2, h1 d rfl]

theorem allReplB_tail {p : Char → Bool} {r c : Char} {l : List Char}
    (h : allReplB p r (c :: l) = true) : allReplB p r l = true := by
  simp [allReplB] at h ⊢
  exact fun d hd => h.2 d hd

theorem collapseByAux_true_head {p : Char → Bool} {r : Char} :
    ∀ {l : List Char} {d : Char},
      (collapseByAux p r true l).head? = some d → p d = false := by
  intro l
  induction l with
  | nil => intro d h; simp [collapseByAux] at h
  | cons c cs ih =>
    intro d h
    by_cases hc : p c = true
    · rw [collapseByAux, if_pos hc, if_pos rfl] at h
      exact ih h
    · rw [collapseByAux, if_neg hc] at h
      simp at h
      rw [← h]
      simpa using hc

theorem collapseByAux_false_head {q : Char → Bool} {r' : Char} {l : List Char} {d : Char}
    (h : (collapseByAux q r' false l).head? = some d) :
    d = r' ∨ l.head? = some d := by
  cases l with
  | nil => simp [collapseByAux] at h
  | cons c cs =>
    by_cases hc : q c = true
    · rw [collapseByAux, if_pos hc, if_neg (by simp)] at h
      simp at h
      exact Or.inl h.symm
    · rw [collapseByAux, if_neg hc] at h
      simp at h
      exact Or.inr (by simp [h])

theorem collapseByAux_noTwo {p : Char → Bool} {r : Char} :
    ∀ (l : List Char) (b : Bool), noTwoB p (collapseByAux p r b l) = true := by
  intro l
  induction l with
  | nil => intro b; cases b <;> rfl
  | cons c cs ih =>
    intro b
    by_cases hc : p c = true
    · cases b with
      | true => rw [collapseByAux, if_pos hc, if_pos rfl]; exact ih true
      | false =>
        rw [collapseByAux, if_pos hc, if_neg (by simp)]
        refine noTwoB_cons ?_ (ih true)
        intro d hd
        have := collapseByAux_true_head (p := p) (r := r) hd
        simp [this]
    · rw [collapseByAux, if_neg hc]
      refine noTwoB_cons ?_ (ih false)
      intro d _
      simp at hc
      simp [hc]

theorem collapseByAux_allRepl {p : Char → Bool} {r : Char} :
    ∀ (l : List Char) (b : Bool), allReplB p r (collapseByAux p r b l) = true := by
  intro l
  induction l with
  | nil => intro b; cases b <;> rfl
  | cons c cs ih =>
    intro b
    by_cases hc : p c = true
    · cases b with
      | true => rw [collapseByAux, if_pos hc, if_pos rfl]; exact ih true
      | false =>
        rw [collapseByAux, if_pos hc, if_neg (by simp)]
        have := ih true
        simp [allReplB] at this ⊢
        exact fun d hd => this d hd
    · rw [collapseByAux, if_neg hc]
      have := ih false
      simp [allReplB] at this ⊢
      refine ⟨Or.inl (by simpa using hc), fun d hd => this d hd⟩

theorem collapseByAux_mem {q : Char → Bool} {r' : Char} :
    ∀ {l : List Char} {b : Bool} {d : Char},
      d ∈ collapseByAux q r' b l → d = r' ∨ d ∈ l := by
  intro l
  induction l with
  | nil => intro b d h; simp [collapseByAux] at h
  | cons c cs ih =>
    intro b d h
    by_cases hc : q c = true
    · cases b with
      | true =>
        rw [collapseByAux, if_pos hc, if_pos rfl] at h
        rcases ih h with h' | h'
        · exact Or.inl h'
        · exact Or.inr (List.mem_cons_of_mem c h')
      | false =>
        rw [collapseByAux, if_pos hc, if_neg (by simp)] at h
        rcases List.mem_cons.mp h with h' | h'
        · exact Or.inl h'
        · rcases ih h' with h'' | h''
          · exact Or.inl h''
          · exact Or.inr (List.mem_cons_of_mem c h'')
    · rw [collapseByAux, if_neg hc] at h
      rcases List.mem_cons.mp h with h' | h'
      · exact Or.inr (by simp [h'])
      · rcases ih h' with h'' | h''
        · exact Or.inl h''
        · exact Or.inr (List.mem_cons_of_mem c h'')

theorem collapseByAux_id {p : Char → Bool} {r : Char} :
    ∀ {l : List Char}, noTwoB p l = true → allReplB p r l = true →
      collapseByAux p r false l = l ∧
        (headOkB p l = true → collapseByAux p r true l = l) := by
  intro l
  induction l with
  | nil => intro _ _; exact ⟨rfl, fun _ => rfl⟩
  | cons c cs ih =>
    intro h1 h2
    have ihcs := ih (noTwoB_tail h1) (allReplB_tail h2)
    by_cases hc : p c = true
    · have hcr : c = r := by
        simp [allReplB] at h2
        rcases h2.1 with h' | h'
        · rw [hc] at h'; cases h'
        · exact h'
      have hhead : headOkB p cs = true := by
        cases cs with
        | nil => rfl
        | cons d ds =>
          simp [noTwoB] at h1
          rcases h1.1 with h' | h'
          · rw [hc] at h'; cases h'
          · simp [headOkB, h']
      constructor
      · rw [collapseByAux, if_pos hc, if_neg (by simp), ihcs.2 hhead, hcr]
      · intro hh
        simp [headOkB, hc] at hh
    · constructor
      · rw [collapseByAux, if_neg hc, ihcs.1]
      · intro _
        rw [collapseByAux, if_neg hc, ihcs.1]

theorem collapseByAux_pres_noTwo {p q : Char → Bool} {r' : Char}
    (hr' : p r' = false) :
    ∀ {l : List Char} (b : Bool), noTwoB p l = true →
      noTwoB p (collapseByAux q r' b l) = true := by
  intro l
  induction l with
  | nil => intro b _; cases b <;> rfl
  | cons c cs ih =>
    intro b h
    by_cases hc : q c = true
    · cases b with
      | true => rw [collapseByAux, if_pos hc, if_pos rfl]; exact ih true (noTwoB_tail h)
      | false =>
        rw [collapseByAux, if_pos hc, if_neg (by simp)]
        refine noTwoB_cons ?_ (ih true (noTwoB_tail h))
        intro d _
        simp [hr']
    · rw [collapseByAux, if_neg hc]
      refine noTwoB_cons ?_ (ih false (noTwoB_tail h))
      intro d hd'
      rcases collapseByAux_false_head hd' with h' | h'
      · rw [h']; simp [hr']
      · cases cs with
        | nil => simp at h'
        | cons e es =>
          simp at h'
          subst h'
          simp [noTwoB] at h
          rcases h.1 with h'' | h'' <;> simp [h'']

theorem collapseByAux_pres_allRepl {p q : Char → Bool} {r r' : Char}
    (hr' : p r' = false) :
    ∀ {l : List Char} (b : Bool), allReplB p r l = true →
      allReplB p r (collapseByAux q r' b l) = true := by
  intro l b h
  simp [allReplB] at h ⊢
  intro d hd
  rcases collapseByAux_mem hd with h' | h'
  · subst h'
    exact Or.inl (by simpa using hr')
  · exact h d h'

theorem collapseByAux_pres_headOk {p q : Char → Bool} {r' : Char}
    (hr' : p r' = false) {l : List Char}
    (h : headOkB p l = true) : headOkB p (collapseByAux q r' false l) = true := by
  cases he : collapseByAux q r' false l with
  | nil => rfl
  | cons d ds =>
    have : (collapseByAux q r' false l).head? = some d := by rw [he]; rfl
    rcases collapseByAux_false_head this with h' | h'
    · simp [headOkB, h', hr']
    · cases l with
      | nil => simp at h'
      | cons c cs =>
        simp at h'
        subst h'
        simp [headOkB] at h
        simp [headOkB, h]

theorem lastOkB_cons {p : Char → Bool} {c : Char} {l : List Char}
    (h : l ≠ []) : lastOkB p (c :: l) = lastOkB p l := by
  cases l with
  | nil => cases h rfl
  | cons d ds => rfl

theorem collapseByAux_ne_nil {q : Char → Bool} {r' : Char} {c : Char} {cs : List Char} :
    collapseByAux q r' false (c :: cs) ≠ [] := by
  by_cases hc : q c = true
  · rw [collapseByAux, if_pos hc, if_neg (by simp)]
    simp
  · rw [collapseByAux, if_neg hc]
    simp

theorem collapseByAux_pres_lastOk {p q : Char → Bool} {r' : Char}
    (hr' : p r' = false) :
    ∀ {l : List Char} (b : Bool), lastOkB p l = true →
      lastOkB p (collapseByAux q r' b l) = true := by
  intro l
  induction l with
  | nil => intro b _; cases b <;> rfl
  | cons c cs ih =>
    intro b h
    have hcs : lastOkB p cs = true := by
      cases cs with
      | nil => rfl
      | cons d ds => rw [← lastOkB_cons (by simp)]; exact h
    by_cases hc : q c = true
    · cases b with
      | true => rw [collapseByAux, if_pos hc, if_pos rfl]; exact ih true hcs
      | false =>
        rw [collapseByAux, if_pos hc, if_neg (by simp)]
        cases he : collapseByAux q r' true cs with
        | nil => simp [lastOkB, hr']
        | cons d ds =>
          rw [lastOkB_cons (by simp), ← he]
          exact ih true hcs
    · rw [collapseByAux, if_neg hc]
      cases he : collapseByAux q r' false cs with
      | nil =>
        cases cs with
        | nil => simpa [lastOkB] using h
        | cons e es => cases collapseByAux_ne_nil he
      | cons d ds =>
        rw [lastOkB_cons (by simp), ← he]
        exact ih false hcs
theorem allReplB_of_mem {p : Char → Bool} {r : Char} {l l' : List Char}
    (hsub : ∀ d, d ∈ l' → d ∈ l) (hall : allReplB p r l = true) :
    allReplB p r l' = true := by
  simp [allReplB] at hall ⊢
  exact fun d hd => hall d (hsub d hd)

theorem dropLeading_headOk (p : Char → Bool) :
    ∀ l : List Char, headOkB p (dropLeading p l) = true := by
  intro l
  induction l with
  | nil => rfl
  | cons c cs ih =>
    by_cases hc : p c = true
    · rw [dropLeading, if_pos hc]; exact ih
    · rw [dropLeading, if_neg hc]
      simpa [headOkB] using hc

theorem dropLeading_noTwo {p' p : Char → Bool} :
    ∀ {l : List Char}, noTwoB p' l = true → noTwoB p' (dropLeading p l) = true := by
  intro l
  induction l with
  | nil => intro _; rfl
  | cons c cs ih =>
    intro h
    by_cases hc : p c = true
    · rw [dropLeading, if_pos hc]; exact ih (noTwoB_tail h)
    · rw [dropLeading, if_neg hc]; exact h

theorem dropLeading_mem {p : Char → Bool} :
    ∀ {l : List Char} {d : Char}, d ∈ dropLeading p l → d ∈ l := by
  intro l
  induction l with
  | nil => intro d h; simp [dropLeading] at h
  | cons c cs ih =>
    intro d h
    by_cases hc : p c = true
    · rw [dropLeading, if_pos hc] at h
      exact List.mem_cons_of_mem c (ih h)
    · rw [dropLeading, if_neg hc] at h
      exact h

theorem dropLeading_lastOk {p' p : Char → Bool} :
    ∀ {l : List Char}, lastOkB p' l = true → lastOkB p' (dropLeading p l) = true := by
  intro l
  induction l with
  | nil => intro _; rfl
  | cons c cs ih =>
    intro h
    by_cases hc : p c = true
    · rw [dropLeading, if_pos hc]
      refine ih ?_
      cases cs with
      | nil => rfl
      | cons d ds => rw [← lastOkB_cons (l := d :: ds) (by simp)]; exact h
    · rw [dropLeading, if_neg hc]; exact h

theorem dropLeading_id {p : Char → Bool} {l : List Char}
    (h : headOkB p l = true) : dropLeading p l = l := by
  cases l with
  | nil => rfl
  | cons c cs =>
    simp [headOkB] at h
    rw [dropLeading, if_neg (by simp [h])]

theorem dropTrailing_cons (p : Char → Bool) (c : Char) (cs : List Char) :
    dropTrailing p (c :: cs) =
      if (dropTrailing p cs).isEmpty && p c then [] else c :: dropTrailing p cs := rfl

theorem dropTrailing_head {p : Char → Bool} {l : List Char} {d : Char}
    (h : (dropTrailing p l).head? = some d) : l.head? = some d := by
  cases l with
  | nil => simp [dropTrailing] at h
  | cons c cs =>
    rw [dropTrailing_cons] at h
    by_cases hc : ((dropTrailing p cs).isEmpty && p c) = true
    · rw [if_pos hc] at h; simp at h
    · rw [if_neg hc] at h
      simp at h
      simp [h]

theorem dropTrailing_lastOk (p : Char → Bool) :
    ∀ l : List Char, lastOkB p (dropTrailing p l) = true := by
  intro l
  induction l with
  | nil => rfl
  | cons c cs ih =>
    rw [dropTrailing_cons]
    by_cases hc : ((dropTrailing p cs).isEmpty && p c) = true
    · rw [if_pos hc]; rfl
    · rw [if_neg hc]
      cases he : dropTrailing p cs with
      | nil =>
        simp [he] at hc
        simpa [lastOkB] using hc
      | cons d ds =>
        rw [lastOkB_cons (by simp), ← he]
        exact ih

theorem dropTrailing_noTwo {p' p : Char → Bool} :
    ∀ {l : List Char}, noTwoB p' l = true → noTwoB p' (dropTrailing p l) = true := by
  intro l
  induction l with
  | nil => intro _; rfl
  | cons c cs ih =>
    intro h
    rw [dropTrailing_cons]
    by_cases hc : ((dropTrailing p cs).isEmpty && p c) = true
    · rw [if_pos hc]; rfl
    · rw [if_neg hc]
      refine noTwoB_cons ?_ (ih (noTwoB_tail h))
      intro d hd
      have hhead := dropTrailing_head hd
      cases cs with
      | nil => simp at hhead
      | cons e es =>
        simp at hhead
        subst hhead
        simp [noTwoB] at h
        rcases h.1 with h' | h' <;> simp [h']

theorem dropTrailing_mem {p : Char → Bool} :
    ∀ {l : List Char} {d : Char}, d ∈ dropTrailing p l → d ∈ l := by
  intro l
  induction l with
  | nil => intro d h; simp [dropTrailing] at h
  | cons c cs ih =>
    intro d h
    rw [dropTrailing_cons] at h
    by_cases hc : ((dropTrailing p cs).isEmpty && p c) = true
    · rw [if_pos hc] at h; simp at h
    · rw [if_neg hc] at h
      rcases List.mem_cons.mp h with h' | h'
      · simp [h']
      · exact List.mem_cons_of_mem c (ih h')

theorem dropTrailing_headOk {p' p : Char → Bool} {l : List Char}
    (h : headOkB p' l = true) : headOkB p' (dropTrailing p l) = true := by
  cases he : dropTrailing p l with
  | nil => rfl
  | cons d ds =>
    have hh := dropTrailing_head (p := p) (l := l) (d := d) (by rw [he]; rfl)
    cases l with
    | nil => simp at hh
    | cons c cs =>
      simp at hh
      subst hh
      simpa [headOkB] using h

theorem dropTrailing_id {p : Char → Bool} :
    ∀ {l : List Char}, lastOkB p l = true → dropTrailing p l = l := by
  intro l
  induction l with
  | nil => intro _; rfl
  | cons c cs ih =>
    intro h
    cases cs with
    | nil =>
      simp [lastOkB] at h
      rw [dropTrailing_cons]
      simp [dropTrailing, h]
    | cons d ds =>
      have hcs : lastOkB p (d :: ds) = true := by rw [← lastOkB_cons (by simp)]; exact h
      rw [dropTrailing_cons, ih hcs]
      simp

theorem pystripWs_noTwo {l : List Char} (h : noTwoB isPySpace l = true) :
    noTwoB isPySpace (pystripWs l) = true :=
  dropTrailing_noTwo (dropLeading_noTwo h)

theorem pystripWs_allRepl {r : Char} {l : List Char} (h : allReplB isPySpace r l = true) :
    allReplB isPySpace r (pystripWs l) = true :=
  allReplB_of_mem (fun _ hd => dropLeading_mem (dropTrailing_mem hd)) h

theorem pystripWs_headOk (l : List Char) : headOkB isPySpace (pystripWs l) = true :=
  dropTrailing_headOk (dropLeading_headOk isPySpace l)

theorem pystripWs_lastOk (l : List Char) : lastOkB isPySpace (pystripWs l) = true :=
  dropTrailing_lastOk isPySpace (dropLeading isPySpace l)

theorem pystripWs_id {l : List Char}
    (hh : headOkB isPySpace l = true) (hl : lastOkB isPySpace l = true) :
    pystripWs l = l := by
  rw [pystripWs, dropLeading_id hh, dropTrailing_id hl]

theorem normalizeText_noTwo (l : List Char) :
    noTwoB isPySpace (normalizeText l) = true :=
  pystripWs_noTwo (collapseByAux_noTwo _ false)

theorem normalizeText_allRepl (l : List Char) :
    allReplB isPySpace ' ' (normalizeText l) = true :=
  pystripWs_allRepl (collapseByAux_allRepl _ false)

theorem normalizeText_headOk (l : List Char) :
    headOkB isPySpace (normalizeText l) = true :=
  pystripWs_headOk _

theorem normalizeText_lastOk (l : List Char) :
    lastOkB isPySpace (normalizeText l) = true :=
  pystripWs_lastOk _

theorem normalizeText_id {l : List Char}
    (h1 : noTwoB isPySpace l = true) (h2 : allReplB isPySpace ' ' l = true)
    (h3 : headOkB isPySpace l = true) (h4 : lastOkB isPySpace l = true) :
    normalizeText l = l := by
  rw [normalizeText, collapseBy, (collapseByAux_id h1 h2).1, pystripWs_id h3 h4]

theorem allReplB_colon (l : List Char) : allReplB isColonB ':' l = true := by
  simp [allReplB, isColonB]

theorem allReplB_comma (l : List Char) : allReplB isCommaB ',' l = true := by
  simp [allReplB, isCommaB]

/-- C7: the composite normalization pass of lines 147–149 (collapse
whitespace runs to single spaces and trim, then collapse repeated colons,
then repeated commas) is idempotent. -/
theorem finalNormalize_idem (l : List Char) :
    finalNormalize (finalNormalize l) = finalNormalize l := by
  have hsp_colon : isPySpace ':' = false := by decide
  have hsp_comma : isPySpace ',' = false := by decide
  have hcol_comma : isColonB ',' = false := by decide
  have h1 : noTwoB isPySpace (finalNormalize l) = true := by
    simp only [finalNormalize, collapseBy]
    exact collapseByAux_pres_noTwo hsp_comma _
      (collapseByAux_pres_noTwo hsp_colon _ (normalizeText_noTwo l))
  have h2 : allReplB isPySpace ' ' (finalNormalize l) = true := by
    simp only [finalNormalize, collapseBy]
    exact collapseByAux_pres_allRepl hsp_comma _
      (collapseByAux_pres_allRepl hsp_colon _ (normalizeText_allRepl l))
  have h3 : headOkB isPySpace (finalNormalize l) = true := by
    simp only [finalNormalize, collapseBy]
    exact collapseByAux_pres_headOk hsp_comma
      (collapseByAux_pres_headOk hsp_colon (normalizeText_headOk l))
  have h4 : lastOkB isPySpace (finalNormalize l) = true := by
    simp only [finalNormalize, collapseBy]
    exact collapseByAux_pres_lastOk hsp_comma _
      (collapseByAux_pres_lastOk hsp_colon _ (normalizeText_lastOk l))
  have h5 : noTwoB isColonB (finalNormalize l) = true := by
    simp only [finalNormalize, collapseBy]
    exact collapseByAux_pres_noTwo hcol_comma _ (collapseByAux_noTwo _ false)
  have h6 : noTwoB isCommaB (finalNormalize l) = true := by
    simp only [finalNormalize, collapseBy]
    exact collapseByAux_noTwo _ false
  conv_lhs => rw [finalNormalize]
  rw [normalizeText_id h1 h2 h3 h4]
  rw [show collapseBy isColonB ':' (finalNormalize l) = finalNormalize l from
    (collapseByAux_id h5 (allReplB_colon _)).1]
  exact (collapseByAux_id h6 (allReplB_comma _)).1

theorem emitRowsAux_ids (cat : List Char) :
    ∀ (paras : List (List DocxRun)) (k : Nat),
      (emitRowsAux cat k paras).map OutputRow.articleId =
        List.range' k (emitRowsAux cat k paras).length := by
  intro paras
  induction paras with
  | nil => intro k; rfl
  | cons p ps ih =>
    intro k
    rw [emitRowsAux]
    by_cases h1 : (normalizeText (paraText p)).isEmpty = true
    · rw [if_pos h1]; exact ih k
    · rw [if_neg h1]
      by_cases h2 : (processParagraph p).1.isEmpty = true
      · rw [if_pos h2]; exact ih k
      · rw [if_neg h2]
        simp only [List.map_cons, List.length_cons, List.range']
        exact congrArg (k :: ·) (ih (k + 1))

theorem emitRowsAux_titles (cat : List Char) :
    ∀ (paras : List (List DocxRun)) (k : Nat),
      (emitRowsAux cat k paras).all (fun row => !row.articleTitle.isEmpty) = true := by
  intro paras
  induction paras with
  | nil => intro k; rfl
  | cons p ps ih =>
    intro k
    rw [emitRowsAux]
    by_cases h1 : (normalizeText (paraText p)).isEmpty = true
    · rw [if_pos h1]; exact ih k
    · rw [if_neg h1]
      by_cases h2 : (processParagraph p).1.isEmpty = true
      · rw [if_pos h2]; exact ih k
      · rw [if_neg h2]
        simp only [List.all_cons, ih (k + 1), Bool.and_true]
        simpa using h2

/-- C8: within one document the emitted rows carry `articleId` values
exactly `1..N` (strictly increasing, contiguous, starting at 1), the
counter advances only on rows with a non-empty title, and every document
of a batch restarts the counter at 1. -/
theorem convertRows_articleIds :
    (∀ stem paras, (convertSingleFileRows stem paras).map OutputRow.articleId =
        List.range' 1 (convertSingleFileRows stem paras).length)
    ∧ (∀ docs, (convertBatchRows docs).map (fun rows => rows.map OutputRow.articleId) =
        docs.map fun d => List.range' 1 (convertSingleFileRows d.1 d.2).length)
    ∧ (∀ stem paras,
        (convertSingleFileRows stem paras).all (fun row => !row.articleTitle.isEmpty) = true) := by
  refine ⟨fun stem paras => emitRowsAux_ids _ paras 1, ?_, fun stem paras => emitRowsAux_titles _ paras 1⟩
  intro docs
  induction docs with
  | nil => rfl
  | cons d ds ih =>
    simp only [convertBatchRows, List.map_cons] at ih ⊢
    rw [ih]
    rw [show (convertSingleFileRows d.1 d.2).map OutputRow.articleId =
      List.range' 1 (convertSingleFileRows d.1 d.2).length from emitRowsAux_ids _ d.2 1]

/-- C9: the batch loop pairs every discovered document with its own
conversion outcome: a failing document is recorded and does not prevent
any later document from being attempted, as the concrete failing example
shows. -/
theorem processAllFiles_attempts_all :
    (∀ {α ε β : Type} (convert : α → Except ε β) (files : List α),
      (processAllFiles convert files).map Prod.fst = files ∧
      (processAllFiles convert files).map Prod.snd = files.map convert)
    ∧ (processAllFiles
        (fun n : Nat => if n = 0 then Except.error "fail" else Except.ok n)
        [0, 1, 2]).map Prod.snd =
      [Except.error "fail", Except.ok 1, Except.ok 2] := by
  constructor
  · intro α ε β convert files
    induction files with
    | nil => exact ⟨rfl, rfl⟩
    | cons f fs ih =>
      simp only [processAllFiles, List.map_cons]
      exact ⟨by rw [ih.1], by rw [ih.2]⟩
  · rfl

/-- C4: `process_runs` consumes the word-skip quota across fragment
boundaries.  Concretely, with `skip_words = 2` and fragments
`["Chapter "], ["IV Overview of the topic"]` both `Chapter` and `IV` are
consumed and the body starts at `Overview`; in general, a fragment on
which the quota runs out mid-way keeps exactly the words after the skip
point, rejoined with single spaces. -/
theorem processRuns_word_skip :
    processRuns
        [⟨"Chapter ".data, false, false⟩, ⟨"IV Overview of the topic".data, false, false⟩] 2 =
      "Overview of the topic".data
    ∧ (∀ (skip : Nat) (st : RunState) (r : DocxRun),
        (pystripWs r.text).isEmpty = false →
        st.wordsProcessed < skip →
        skip < (pySplit r.text).length + st.wordsProcessed →
        processRun skip st r =
          appendRun { st with wordsProcessed := skip } r
            (joinSpace ((pySplit r.text).drop (skip - st.wordsProcessed)))) := by
  constructor
  · decide
  · intro skip st r h1 h2 h3
    simp only [processRun]
    rw [if_neg (by simp [h1]), if_pos h2, if_neg (by omega)]

theorem processRuns_word_skip_witness :
    (pystripWs "IV Overview of the topic".data).isEmpty = false
    ∧ 1 < 2
    ∧ 2 < (pySplit "IV Overview of the topic".data).length + 1
    ∧ processRun 2 ⟨[], none, [], 1⟩ ⟨"IV Overview of the topic".data, false, false⟩ =
        appendRun { (⟨[], none, [], 1⟩ : RunState) with wordsProcessed := 2 }
          ⟨"IV Overview of the topic".data, false, false⟩
          (joinSpace ((pySplit "IV Overview of the topic".data).drop (2 - 1))) :=
  ⟨by decide, by decide, by decide,
    processRuns_word_skip.2 2 ⟨[], none, [], 1⟩
      ⟨"IV Overview of the topic".data, false, false⟩ (by decide) (by decide) (by decide)⟩

theorem dropLeading_eq_nil_of_all {p : Char → Bool} :
    ∀ {l : List Char}, l.all p = true → dropLeading p l = [] := by
  intro l
  induction l with
  | nil => intro _; rfl
  | cons c cs ih =>
    intro h
    simp at h
    rw [dropLeading, if_pos h.1]
    exact ih (by simpa using h.2)

theorem pystripWs_eq_nil_of_all {l : List Char} (h : l.all isPySpace = true) :
    pystripWs l = [] := by
  rw [pystripWs, dropLeading_eq_nil_of_all h]
  rfl

/-- C10: in `process_runs`, an empty fragment is skipped without touching
the accumulator state (so same-style fragments on both sides merge into a
single span); a pure-whitespace fragment is appended verbatim to the open
accumulator when text has already been accumulated (and is hence rendered
inside the preceding fragment's span) and is dropped otherwise, so leading
whitespace fragments are dropped. -/
theorem processRun_whitespace_behavior :
    (∀ (skip : Nat) (st : RunState) (r : DocxRun), r.text = [] → processRun skip st r = st)
    ∧ (∀ (skip : Nat) (st : RunState) (r : DocxRun),
        isSpaceText r.text = true → st.currentText ≠ [] →
        processRun skip st r = { st with currentText := st.currentText ++ [r.text] })
    ∧ (∀ (skip : Nat) (st : RunState) (r : DocxRun),
        isSpaceText r.text = true → st.currentText = [] →
        processRun skip st r = st)
    ∧ processRuns [⟨"a".data, true, false⟩, ⟨[], false, false⟩, ⟨"b".data, true, false⟩] 0 =
        "<span class=\"bold\">ab</span>".data
    ∧ processRuns [⟨"a".data, true, false⟩, ⟨" ".data, false, false⟩, ⟨"b".data, false, false⟩] 0 =
        "<span class=\"bold\">a </span>b".data
    ∧ processRuns [⟨" ".data, false, false⟩, ⟨"b".data, false, false⟩] 0 = "b".data := by
  refine ⟨?_, ?_, ?_, by decide, by decide, by decide⟩
  · intro skip st r hr
    simp [processRun, hr, pystripWs, dropLeading, dropTrailing, isSpaceText]
  · intro skip st r hr hct
    have hall : r.text.all isPySpace = true := by
      simp [isSpaceText] at hr
      simpa using hr.2
    simp only [processRun, pystripWs_eq_nil_of_all hall, List.isEmpty_nil, if_pos]
    rw [if_pos (by simp [hr, List.isEmpty_iff, hct])]
  · intro skip st r hr hct
    have hall : r.text.all isPySpace = true := by
      simp [isSpaceText] at hr
      simpa using hr.2
    simp only [processRun, pystripWs_eq_nil_of_all hall, List.isEmpty_nil, if_pos]
    rw [if_neg (by simp [hct])]

/-! Lemmas about the Roman-numeral stripping pass of line 135. -/

theorem frontMatches_head_false {b : List Char} {a : Char} {rest : List Char}
    (hb : ∀ c ∈ b, isWordChar c = false) (ha : isWordChar a = true) :
    frontMatches (a :: rest) b = false := by
  cases b with
  | nil => rfl
  | cons c cs =>
    have hc := hb c (by simp)
    have hne : (a == c) = false := by
      cases hq : (a == c)
      · rfl
      · simp at hq
        subst hq
        rw [ha] at hc
        cases hc
    simp [frontMatches, hne]

theorem matchRomanTok_none_of_nonword {c : Char} {cs : List Char}
    (hc : isWordChar c = false) : matchRomanTok (c :: cs) = none := by
  have key : ∀ a : Char, isWordChar a = true → (a == c) = false := by
    intro a ha
    cases hq : (a == c)
    · rfl
    · simp at hq
      subst hq
      rw [ha] at hc
      cases hc
  have hI := key 'I' (by decide)
  have hV := key 'V' (by decide)
  have hX := key 'X' (by decide)
  simp [matchRomanTok, romanToks, List.findSome?, frontMatches, hI, hV, hX]

theorem stripRomanAux_nonword :
    ∀ {l : List Char}, (∀ c ∈ l, isWordChar c = false) →
      ∀ (fuel : Nat) (pw : Bool), stripRomanAux fuel pw l = l := by
  intro l
  induction l with
  | nil => intro _ fuel pw; cases fuel <;> rfl
  | cons c cs ih =>
    intro h fuel pw
    have hc := h c (by simp)
    cases fuel with
    | zero => rfl
    | succ f =>
      have hrec := ih (fun d hd => h d (by simp [hd])) f (isWordChar c)
      cases pw with
      | true => simp [stripRomanAux, hrec]
      | false =>
        simp [stripRomanAux, matchRomanTok_none_of_nonword hc, hrec]

theorem romanAfterOk_of_nonword {b : List Char}
    (hb : ∀ c ∈ b, isWordChar c = false) : romanAfterOk b = true := by
  cases b with
  | nil => rfl
  | cons c cs => simp [romanAfterOk, hb c (by simp)]

theorem romanAfterOk_cons (c : Char) (rest : List Char) :
    romanAfterOk (c :: rest) = !isWordChar c := rfl

theorem matchRomanTok_tok {t : List Char} (ht : t ∈ romanToks)
    {b : List Char} (hb : ∀ c ∈ b, isWordChar c = false) :
    matchRomanTok (t ++ b) = some b := by
  have hA : romanAfterOk b = true := romanAfterOk_of_nonword hb
  have hIW : isWordChar 'I' = true := by decide
  have hVW : isWordChar 'V' = true := by decide
  have hXW : isWordChar 'X' = true := by decide
  simp [romanToks] at ht
  rcases ht with h | h | h | h | h | h | h | h | h | h <;> subst h <;>
    simp [matchRomanTok, romanToks, List.findSome?, frontMatches, romanAfterOk_cons,
      hA, hIW, hVW, hXW]

theorem dropPunct1_fst_mem :
    ∀ {b : List Char} {d : Char}, d ∈ (dropPunct1 b).1 → d ∈ b := by
  intro b d h
  cases b with
  | nil => simp [dropPunct1] at h
  | cons c cs =>
    rw [dropPunct1] at h
    by_cases hc : (c == ':' || c == ',' || c == ' ') = true
    · rw [if_pos hc] at h
      exact List.mem_cons_of_mem c h
    · rw [if_neg hc] at h
      exact h

theorem romanToks_ne_nil {t : List Char} (ht : t ∈ romanToks) : t ≠ [] := by
  simp [romanToks] at ht
  rcases ht with h | h | h | h | h | h | h | h | h | h <;> subst h <;> simp

theorem stripRomanAux_append {t : List Char} (ht : t ∈ romanToks)
    {b : List Char} (hb : ∀ c ∈ b, isWordChar c = false) :
    ∀ (a : List Char) (fuel : Nat), (∀ c ∈ a, isWordChar c = false) →
      (a ++ (t ++ b)).length ≤ fuel →
      stripRomanAux fuel false (a ++ (t ++ b)) = a ++ (dropPunct1 b).1 := by
  intro a
  induction a with
  | nil =>
    intro fuel _ hlen
    have hm : matchRomanTok (t ++ b) = some b := matchRomanTok_tok ht hb
    obtain ⟨tc, trest, rfl⟩ : ∃ tc trest, t = tc :: trest := by
      cases t with
      | nil => cases romanToks_ne_nil ht rfl
      | cons tc trest => exact ⟨tc, trest, rfl⟩
    cases fuel with
    | zero => simp at hlen
    | succ f =>
      simp only [List.nil_append, List.cons_append] at hm hlen ⊢
      simp [stripRomanAux, hm]
      exact stripRomanAux_nonword (fun d hd => hb d (dropPunct1_fst_mem hd)) f _
  | cons d a' ih =>
    intro fuel ha hlen
    have hd := ha d (by simp)
    cases fuel with
    | zero => simp at hlen
    | succ f =>
      simp only [List.cons_append] at hlen ⊢
      have hrec := ih f (fun c hc => ha c (by simp [hc]))
        (by simp only [List.length_cons] at hlen; omega)
      simp [stripRomanAux, matchRomanTok_none_of_nonword hd, hd, hrec]

/-- C3 (amended): characters are not always preserved into title-prefix or
body: the post-processing of line 135 removes every standalone
Roman-numeral token, together with one trailing `:`/`,`/space, anywhere in
the body — not only when the token was consumed as part of the title (and
tag sanitization and whitespace/punctuation collapsing may drop further
characters). -/
theorem stripRomanTokens_removes_anywhere {t a b : List Char}
    (ht : t ∈ romanToks)
    (ha : ∀ c ∈ a, isWordChar c = false)
    (hb : ∀ c ∈ b, isWordChar c = false) :
    stripRomanTokens (a ++ (t ++ b)) = a ++ (dropPunct1 b).1 :=
  stripRomanAux_append ht hb a _ ha (le_refl _)

theorem stripRomanTokens_removes_anywhere_witness :
    (['I', 'V'] ∈ romanToks)
    ∧ (∀ c ∈ ['-', ' '], isWordChar c = false)
    ∧ (∀ c ∈ [':', ' ', '!'], isWordChar c = false)
    ∧ stripRomanTokens (['-', ' '] ++ (['I', 'V'] ++ [':', ' ', '!'])) =
        ['-', ' '] ++ (dropPunct1 [':', ' ', '!']).1 :=
  ⟨by decide, by decide, by decide,
    stripRomanTokens_removes_anywhere (by decide) (by decide) (by decide)⟩

/-- C3 counterexample: in the paragraph `Alpha beta I gamma` the second
word is not a Roman numeral, so the title is just `ALPHA` and only the
first word is consumed by the title path (no punctuation detected); the
`I` standing in the body is nevertheless dropped: the body is
`beta gamma`, and the `I` is in neither the title prefix nor the body. -/
theorem processParagraph_drops_body_roman :
    processParagraph [⟨"Alpha beta I gamma".data, false, false⟩] =
      ("ALPHA".data, "beta gamma".data)
    ∧ 'I' ∈ "Alpha beta I gamma".data
    ∧ 'I' ∉ "beta gamma".data
    ∧ 'I' ∉ "ALPHA".data
    ∧ (processParagraphExt [⟨"Alpha beta I gamma".data, false, false⟩]).2.1 = none := by
  decide

/-- C5 counterexample: `is_roman_numeral` strips surrounding whitespace
before matching, so the input `" I "`, which is not one of the ten tokens,
is still accepted. -/
theorem isRomanNumeral_accepts_padded :
    isRomanNumeral " I " = true ∧ " I ".data ∉ romanToks := by decide

/-- C5 (amended): `is_roman_numeral` returns true exactly when the input
with surrounding whitespace stripped is one of the ten tokens
I II III IV V VI VII VIII IX X; in particular it accepts each of the ten
tokens themselves and rejects lowercase forms, `XI`, `IIII` and the empty
string. -/
theorem isRomanNumeral_spec :
    (∀ s : String, isRomanNumeral s = true ↔ pystripWs s.data ∈ romanToks)
    ∧ isRomanNumeral "I" = true ∧ isRomanNumeral "II" = true
    ∧ isRomanNumeral "III" = true ∧ isRomanNumeral "IV" = true
    ∧ isRomanNumeral "V" = true ∧ isRomanNumeral "VI" = true
    ∧ isRomanNumeral "VII" = true ∧ isRomanNumeral "VIII" = true
    ∧ isRomanNumeral "IX" = true ∧ isRomanNumeral "X" = true
    ∧ isRomanNumeral "i" = false ∧ isRomanNumeral "XI" = false
    ∧ isRomanNumeral "IIII" = false ∧ isRomanNumeral "" = false := by
  refine ⟨?_, by decide, by decide, by decide, by decide, by decide, by decide,
    by decide, by decide, by decide, by decide, by decide, by decide, by decide, by decide⟩
  intro s
  simp [isRomanNumeral, isRomanNumeralL, List.any_eq_true]

/-! Lemmas about the tag-sanitization pass of line 136. -/

theorem splitAtGt_append {t : List Char} (ht : '>' ∉ t) (post : List Char) :
    splitAtGt (t ++ '>' :: post) = some (t, post) := by
  induction t with
  | nil => simp [splitAtGt]
  | cons c cs ih =>
    have hc : c ≠ '>' := fun h => ht (by simp [h])
    have ihc := ih (fun h => ht (by simp [h]))
    simp [splitAtGt, hc, ihc]

theorem splitAtGt_length :
    ∀ {l a b : List Char}, splitAtGt l = some (a, b) →
      l.length = a.length + 1 + b.length := by
  intro l
  induction l with
  | nil => intro a b h; simp [splitAtGt] at h
  | cons c cs ih =>
    intro a b h
    by_cases hc : (c == '>') = true
    · rw [splitAtGt, if_pos hc] at h
      simp at h
      rcases h with ⟨rfl, rfl⟩
      simp
      omega
    · rw [splitAtGt, if_neg hc] at h
      cases hsp : splitAtGt cs with
      | none => rw [hsp] at h; simp at h
      | some pair =>
        obtain ⟨a', b'⟩ := pair
        rw [hsp] at h
        simp at h
        rcases h with ⟨rfl, rfl⟩
        have := ih hsp
        simp [this]
        omega

theorem frontMatches_append_gtFree :
    ∀ {pat : List Char}, '>' ∉ pat →
      ∀ {t : List Char}, '>' ∉ t → ∀ (rest : List Char),
        frontMatches pat (t ++ '>' :: rest) = frontMatches pat t := by
  intro pat
  induction pat with
  | nil => intro _ t _ rest; rfl
  | cons pc pcs ih =>
    intro hpat t ht rest
    cases t with
    | nil =>
      have hpc : pc ≠ '>' := fun h => hpat (by simp [h])
      simp [frontMatches, hpc]
    | cons tc tcs =>
      have ihr := ih (fun h => hpat (by simp [h])) (t := tcs)
        (fun h => ht (by simp [h])) rest
      simp only [List.cons_append, frontMatches]
      simp [ihr]

theorem tagKeep_append {t : List Char} (ht : '>' ∉ t) (rest : List Char) :
    tagKeep (t ++ '>' :: rest) = tagKeep t := by
  rw [tagKeep, tagKeep,
    frontMatches_append_gtFree (by decide) ht rest,
    frontMatches_append_gtFree (by decide) ht rest]

theorem frontMatches_extend :
    ∀ {pat t : List Char}, frontMatches pat t = true →
      ∀ (rest : List Char), frontMatches pat (t ++ rest) = true := by
  intro pat
  induction pat with
  | nil => intro t _ rest; rfl
  | cons pc pcs ih =>
    intro t h rest
    cases t with
    | nil => simp [frontMatches] at h
    | cons tc tcs =>
      simp only [frontMatches, Bool.and_eq_true] at h
      simp only [List.cons_append, frontMatches, h.1, Bool.true_and]
      exact ih h.2 rest

theorem tagKeep_extend {t : List Char} (h : tagKeep t = true) (rest : List Char) :
    tagKeep (t ++ rest) = true := by
  rw [tagKeep] at h ⊢
  rcases Bool.or_eq_true_iff.mp h with h' | h'
  · rw [frontMatches_extend h' rest]
    rfl
  · rw [frontMatches_extend h' rest]
    simp

theorem stripTagsAux_fuel :
    ∀ (f₁ : Nat) (l : List Char) (f₂ : Nat), l.length ≤ f₁ → l.length ≤ f₂ →
      stripTagsAux f₁ l = stripTagsAux f₂ l := by
  intro f₁
  induction f₁ with
  | zero =>
    intro l f₂ h1 _
    have : l = [] := by
      cases l with
      | nil => rfl
      | cons c cs => simp at h1
    subst this
    cases f₂ <;> rfl
  | succ f ih =>
    intro l f₂ h1 h2
    cases l with
    | nil => cases f₂ <;> rfl
    | cons c cs =>
      cases f₂ with
      | zero => simp at h2
      | succ f₂' =>
        simp only [List.length_cons] at h1 h2
        simp only [stripTagsAux]
        by_cases hcond : (c == '<' && !tagKeep cs) = true
        · rw [if_pos hcond, if_pos hcond]
          cases hsp : splitAtGt cs with
          | none => rw [ih cs f₂' (by omega) (by omega)]
          | some pair =>
            obtain ⟨inner, after⟩ := pair
            have hlen := splitAtGt_length hsp
            have e1 := ih cs f₂' (by omega) (by omega)
            have e2 := ih after f₂' (by omega) (by omega)
            simp [e1, e2]
        · rw [if_neg hcond, if_neg hcond, ih cs f₂' (by omega) (by omega)]

theorem stripTagsAux_eq_strip {fuel : Nat} {l : List Char} (h : l.length ≤ fuel) :
    stripTagsAux fuel l = stripDisallowedTags l :=
  stripTagsAux_fuel fuel l l.length h (le_refl _)

theorem stripTagsAux_copy :
    ∀ (u : List Char) (fuel : Nat) (v : List Char),
      (∀ c ∈ u, (c == '<') = false) → u.length + v.length ≤ fuel →
      stripTagsAux fuel (u ++ v) = u ++ stripTagsAux (fuel - u.length) v := by
  intro u
  induction u with
  | nil => intro fuel v _ _; simp
  | cons c cs ih =>
    intro fuel v hu hlen
    cases fuel with
    | zero => simp at hlen
    | succ f =>
      have hc := hu c (by simp)
      have ihv := ih f v (fun d hd => hu d (by simp [hd]))
        (by simp only [List.length_cons] at hlen; omega)
      show stripTagsAux (f + 1) (c :: (cs ++ v)) =
        c :: (cs ++ stripTagsAux (f + 1 - (c :: cs).length) v)
      rw [show f + 1 - (c :: cs).length = f - cs.length from by
        simp [Nat.succ_sub_succ]]
      rw [stripTagsAux, if_neg (by simp [hc]), ihv]

/-- C6 (amended): the sanitization of line 136 strips every markup tag
whose content does not begin with `span` or `/span` (first conjunct), and
keeps every tag whose content does begin with `span` or `/span` (second
conjunct).  Legitimate `<span class="...">`/`</span>` tags therefore
always survive, but so does any other tag whose name merely starts with
`span`, such as `<spandex>`. -/
theorem stripDisallowedTags_spec :
    (∀ pre t post : List Char,
        '<' ∉ pre → t ≠ [] → '>' ∉ t → tagKeep t = false →
        stripDisallowedTags (pre ++ '<' :: (t ++ '>' :: post)) =
          pre ++ stripDisallowedTags post)
    ∧ (∀ pre t post : List Char,
        '<' ∉ pre → '<' ∉ t → '>' ∉ t → tagKeep t = true →
        stripDisallowedTags (pre ++ '<' :: (t ++ '>' :: post)) =
          pre ++ '<' :: (t ++ '>' :: stripDisallowedTags post)) := by
  constructor
  · intro pre t post h1 h2 h3 h4
    rw [stripDisallowedTags]
    rw [stripTagsAux_copy pre _ ('<' :: (t ++ '>' :: post))
      (fun c hc => by
        cases hq : (c == '<')
        · rfl
        · simp at hq; subst hq; cases h1 hc)
      (by simp)]
    rw [show (pre ++ '<' :: (t ++ '>' :: post)).length - pre.length =
        (t ++ '>' :: post).length + 1 from by simp]
    have hkeep : tagKeep (t ++ '>' :: post) = false := by
      rw [tagKeep_append h3]
      exact h4
    have hsp := splitAtGt_append h3 post
    have hne : t.isEmpty = false := by simpa using h2
    have hfin : stripTagsAux (t ++ '>' :: post).length post = stripDisallowedTags post :=
      stripTagsAux_eq_strip (by simp; omega)
    have hfin2 : stripTagsAux (t.length + (post.length + 1)) post = stripDisallowedTags post :=
      stripTagsAux_eq_strip (by omega)
    simp [stripTagsAux, hkeep, hsp, hne, hfin, hfin2]
  · intro pre t post h1 h2 h3 h4
    rw [stripDisallowedTags]
    rw [stripTagsAux_copy pre _ ('<' :: (t ++ '>' :: post))
      (fun c hc => by
        cases hq : (c == '<')
        · rfl
        · simp at hq; subst hq; cases h1 hc)
      (by simp)]
    rw [show (pre ++ '<' :: (t ++ '>' :: post)).length - pre.length =
        (t ++ '>' :: post).length + 1 from by simp]
    have hkeepT : tagKeep (t ++ '>' :: post) = true := by
      have := tagKeep_extend h4 ('>' :: post)
      simpa using this
    rw [stripTagsAux, if_neg (by simp [hkeepT])]
    rw [show t ++ '>' :: post = (t ++ ['>']) ++ post from by simp]
    rw [stripTagsAux_copy (t ++ ['>']) _ post
      (fun c hc => by
        rcases List.mem_append.mp hc with hc' | hc'
        · cases hq : (c == '<')
          · rfl
          · simp at hq; subst hq; cases h2 hc'
        · simp at hc'
          subst hc'
          rfl)
      (by simp; omega)]
    rw [stripTagsAux_eq_strip (by simp; omega)]
    simp

theorem stripDisallowedTags_spec_witness :
    ('<' ∉ "a".data) ∧ ("b".data ≠ []) ∧ ('>' ∉ "b".data) ∧ tagKeep "b".data = false
    ∧ stripDisallowedTags ("a".data ++ '<' :: ("b".data ++ '>' :: "c".data)) =
        "a".data ++ stripDisallowedTags "c".data
    ∧ ('<' ∉ "span class=x".data) ∧ ('>' ∉ "span class=x".data)
    ∧ tagKeep "span class=x".data = true
    ∧ stripDisallowedTags ("a".data ++ '<' :: ("span class=x".data ++ '>' :: "c".data)) =
        "a".data ++ '<' :: ("span class=x".data ++ '>' :: stripDisallowedTags "c".data) :=
  ⟨by decide, by decide, by decide, by decide,
    stripDisallowedTags_spec.1 "a".data "b".data "c".data
      (by decide) (by decide) (by decide) (by decide),
    by decide, by decide, by decide,
    stripDisallowedTags_spec.2 "a".data "span class=x".data "c".data
      (by decide) (by decide) (by decide) (by decide)⟩

/-- C6 counterexample: `<spandex>` is neither an opening style-span tag
`<span class="...">` nor a closing `</span>`, yet the sanitization keeps
it (the lookahead only tests for the prefix `span`), while an ordinary
tag such as `<b>` is stripped. -/
theorem stripDisallowedTags_keeps_spandex :
    stripDisallowedTags "a<spandex>b".data = "a<spandex>b".data
    ∧ stripDisallowedTags "a<b>b".data = "ab".data := by
  decide

theorem processRun_whitespace_behavior_witness :
    processRun 0 ⟨[], none, [], 0⟩ ⟨[], true, false⟩ = ⟨[], none, [], 0⟩
    ∧ processRun 0 ⟨[], some "bold".data, ["a".data], 0⟩ ⟨" ".data, false, false⟩ =
        { (⟨[], some "bold".data, ["a".data], 0⟩ : RunState) with
            currentText := ["a".data] ++ [" ".data] }
    ∧ processRun 0 ⟨[], none, [], 0⟩ ⟨" ".data, false, false⟩ = ⟨[], none, [], 0⟩ :=
  ⟨processRun_whitespace_behavior.1 0 ⟨[], none, [], 0⟩ ⟨[], true, false⟩ rfl,
    processRun_whitespace_behavior.2.1 0 ⟨[], some "bold".data, ["a".data], 0⟩
      ⟨" ".data, false, false⟩ (by decide) (by decide),
    processRun_whitespace_behavior.2.2.1 0 ⟨[], none, [], 0⟩
      ⟨" ".data, false, false⟩ (by decide) rfl⟩

/-- C1 counterexample: for the paragraph with fragments
`("Section II: ", none), ("Hello ", bold), ("world", none)` the detected
colon is re-inserted just before the first span's closing tag
(lines 138–143), so the processed body is
`<span class="bold">Hello :</span>world` and not the claimed
`<span class="bold">Hello </span>world`. -/
theorem processParagraph_c1_counterexample :
    (processParagraphExt
        [⟨"Section II: ".data, false, false⟩, ⟨"Hello ".data, true, false⟩,
          ⟨"world".data, false, false⟩]).2.2 =
      "<span class=\"bold\">Hello :</span>world".data
    ∧ "<span class=\"bold\">Hello :</span>world".data ≠
        "<span class=\"bold\">Hello </span>world".data := by
  decide

/-- C1 (amended): for that paragraph the title is `SECTION II`, the
detected punctuation is `:`, and the fully post-processed body is
`<span class="bold">Hello :</span>world` — the punctuation is re-inserted
inside the first span rather than dropped. -/
theorem processParagraph_c1 :
    processParagraphExt
        [⟨"Section II: ".data, false, false⟩, ⟨"Hello ".data, true, false⟩,
          ⟨"world".data, false, false⟩] =
      ("SECTION II".data, some [':'], "<span class=\"bold\">Hello :</span>world".data) := by
  decide

/-- C2 counterexample: for the single fragment
`("Overview, this is the body", none)` the paragraph has more than one
word, and in that branch (lines 113–127) the first word's trailing comma
is never inspected: no punctuation is detected and the body is
`this is the body`, not `, this is the body`. -/
theorem processParagraph_c2_counterexample :
    (processParagraphExt [⟨"Overview, this is the body".data, false, false⟩]).2.1 = none
    ∧ (processParagraphExt [⟨"Overview, this is the body".data, false, false⟩]).2.2 =
        "this is the body".data
    ∧ "this is the body".data ≠ ", this is the body".data := by
  decide

/-- C2 (amended): for that paragraph the title is `OVERVIEW`, no
punctuation is detected (first-word punctuation is only extracted in the
single-word branch, lines 128–132), and the body is `this is the body`. -/
theorem processParagraph_c2 :
    processParagraphExt [⟨"Overview, this is the body".data, false, false⟩] =
      ("OVERVIEW".data, none, "this is the body".data) := by
  decide
